import Mathlib

/-!
Verification of the incremental chunking and indexing pipeline of
ci_vector_processor.py (class CICDVectorProcessor).

Text is embedded as List Char (one element per Python character).  The
ChromaDB collection is embedded as a list of chunk records; the MD5
fingerprint of a chunk id is modelled by the exact string that the source
feeds to hashlib.md5, since MD5 is a deterministic function of that string.
Possibly failing external calls (Pinecone upsert, file reads, decoders) are
embedded as explicit function parameters returning Bool or Option.
-/

set_option autoImplicit false

namespace CIVP

/-! ### Python string helpers -/

/-- Whitespace characters removed by the Python str.strip() call on ASCII
text: space, tab, newline, carriage return, vertical tab, form feed. -/
def pyIsSpace (c : Char) : Bool :=
  c == ' ' || c == '\t' || c == '\n' || c == '\r' ||
  c == Char.ofNat 11 || c == Char.ofNat 12

/-- Python str.strip(): remove leading and trailing whitespace. -/
def pyStrip (l : List Char) : List Char :=
  ((l.dropWhile pyIsSpace).reverse.dropWhile pyIsSpace).reverse

/-- Index of the last occurrence of a period in a character list, if any. -/
def lastDotIdx : List Char → Option Nat
  | [] => none
  | c :: rest =>
    match lastDotIdx rest with
    | some j => some (j + 1)
    | none => if c == '.' then some 0 else none

/-- Python content.rfind(".", start, stop): highest index p with
start ≤ p < stop and content[p] = period, as an Option instead of -1. -/
def rfindDot (content : List Char) (start stop : Nat) : Option Nat :=
  (lastDotIdx ((content.drop start).take (stop - start))).map (fun j => j + start)

/-! ### get_chunks (source lines 302-325) -/

/-- End of the window that begins at start, lines 311-317 of the source:
end = min(start + chunk_size, len); if end < len, snap back to just after
the last period found in [start, end) when that period lies strictly after
start + chunk_size // 2. -/
def winEnd (content : List Char) (cs : Nat) (start : Nat) : Nat :=
  if min (start + cs) content.length < content.length then
    match rfindDot content start (min (start + cs) content.length) with
    | some p =>
      if start + cs / 2 < p then p + 1 else min (start + cs) content.length
    | none => min (start + cs) content.length
  else min (start + cs) content.length

/-- The while loop of get_chunks, lines 310-323, with explicit fuel.  One
unit of fuel is one loop iteration.  The loop variable start visits
pairwise distinct positions in any terminating run (a repeated position
would repeat forever), so content.length + 1 units of fuel are enough for
every terminating run and the none result models divergence. -/
def chunkLoop (content : List Char) (cs ov : Nat) :
    Nat → Nat → List (List Char) → Option (List (List Char))
  | 0, start, acc =>
    if start < content.length then none else some acc.reverse
  | fuel + 1, start, acc =>
    if start < content.length then
      let e := winEnd content cs start
      let chunk := pyStrip ((content.drop start).take (e - start))
      chunkLoop content cs ov fuel
        (if e < content.length then e - ov else e)
        (if chunk = [] then acc else chunk :: acc)
    else some acc.reverse

/-- get_chunks, source lines 302-325.  The source defaults are
chunk_size = 1000, overlap = 200; callers in this file always pass them
explicitly. -/
def get_chunks (content : List Char) (cs ov : Nat) : Option (List (List Char)) :=
  if content.length ≤ cs then some [content]
  else chunkLoop content cs ov (content.length + 1) 0 []

/-- Concatenation of the non-overlap regions of a chunk sequence: every
chunk except the last contributes its text with the final ov characters
removed, the last chunk contributes all of its text. -/
def regionsJoin (ov : Nat) : List (List Char) → List Char
  | [] => []
  | [c] => c
  | c :: c2 :: rest => c.take (c.length - ov) ++ regionsJoin ov (c2 :: rest)

/-! ### Chunk identity (source lines 383-386) -/

/-- Decimal digits of a natural number, most significant first, with an
explicit fuel argument for structural recursion; fuel above the number
itself is always enough since the number shrinks by a factor of ten per
step. -/
def natDigitsAux : Nat → Nat → List Char
  | 0, _ => []
  | fuel + 1, n =>
    if n < 10 then [Nat.digitChar n]
    else natDigitsAux fuel (n / 10) ++ [Nat.digitChar (n % 10)]

/-- Python str(i) for a natural number i. -/
def natDigits (n : Nat) : List Char := natDigitsAux (n + 1) n

/-- Numeric value of a decimal digit character. -/
def digitVal (c : Char) : Nat := c.toNat - 48

/-- The string that process_repo_incremental feeds to hashlib.md5 for a
chunk id, source lines 384-386: the f-string
scope_relativepath_index_filehash joined with underscores.  MD5 is a
deterministic function of this string, so two chunk ids are equal exactly
when these strings are (up to MD5 collisions, on which no claim relies). -/
def encodeChunkId (scope relpath : List Char) (i : Nat) (digest : List Char) :
    List Char :=
  scope ++ '_' :: (relpath ++ '_' :: (natDigits i ++ '_' :: digest))

/-! ### File filter should_process_file (source lines 251-283) -/

def skip_extensions : List String :=
  [".idx", ".pack", ".pyc", ".rev", ".sample",
   ".jpg", ".jpeg", ".png", ".gif", ".bmp", ".tiff", ".webp",
   ".pdf", ".zip", ".tar", ".gz", ".rar", ".7z",
   ".mp4", ".avi", ".mov", ".wmv", ".mp3", ".wav",
   ".exe", ".dll", ".so", ".dylib", ".bin"]

def skip_folders : List String :=
  ["node_modules", ".git", "__pycache__", ".venv", "venv",
   "env", "wiki_data", ".github", "target", "build", "dist"]

/-- Python str.lower() as applied to an ASCII extension: lowercase each
character. -/
def pyLower (s : String) : String := String.mk (s.data.map Char.toLower)

/-- should_process_file, source lines 251-283, as a predicate over the path
segments, the extension and the stat size.  A none size models the stat
call raising, which the bare except at line 280-281 swallows, so the size
check is skipped. -/
def should_process_file (parts : List String) (suffix : String)
    (size? : Option Nat) : Bool :=
  if parts.any (fun part => skip_folders.contains part) then false
  else if skip_extensions.contains (pyLower suffix) then false
  else
    match size? with
    | some sz => if 10 * 1024 * 1024 < sz then false else true
    | none => true

/-! ### Content loader get_file_content (source lines 285-300) -/

/-- Decoding a byte sequence as latin-1 (iso-8859-1): every byte maps to the
code point with the same value, so the decode is total. -/
def latin1_decode (bs : List (Fin 256)) : List Char :=
  bs.map (fun b => Char.ofNat b.val)

/-- get_file_content, source lines 285-300.  read_result none models the
open or read call raising a non-decoding I/O error, which line 295-297
turns into an empty string.  The utf-8, utf-16 and cp1252 decoders are
abstract parameters returning none on a UnicodeDecodeError; iso-8859-1 is
concrete and total.  The encodings are tried in the fixed source order and
the first success is returned; if all four fail, line 299-300 returns the
empty string. -/
def get_file_content (read_result : Option (List (Fin 256)))
    (utf8_decode utf16_decode cp1252_decode :
      List (Fin 256) → Option (List Char)) : List Char :=
  match read_result with
  | none => []
  | some bs =>
    match ([utf8_decode bs, utf16_decode bs, some (latin1_decode bs),
        cp1252_decode bs].findSome? id) with
    | some text => text
    | none => []

/-! ### Pinecone upload _upload_to_pinecone (source lines 206-228) -/

/-- Successive slices vectors[i:i+k] for i = 0, k, 2k, ..., the batches of
the Python range loop at line 211.  Fuel-structural; the list length is
always enough fuel because each step removes at least one element when k
is positive. -/
def batchesOfAux {α : Type} (k : Nat) : Nat → List α → List (List α)
  | 0, _ => []
  | _, [] => []
  | fuel + 1, a :: l => (a :: l).take k :: batchesOfAux k fuel ((a :: l).drop k)

def batchesOf {α : Type} (k : Nat) (l : List α) : List (List α) :=
  if k = 0 then [] else batchesOfAux k l.length l

/-- The batch loop of _upload_to_pinecone.  The first component accumulates
the batches for which an upsert call was issued, in reverse; ok b tells
whether the upsert call for batch b succeeds.  A failing call raises, and
the single try around the whole loop (lines 208-228) catches it, so no
later batch is issued and False is returned. -/
def uploadLoop {α : Type} (ok : List α → Bool) :
    List (List α) → List (List α) → List (List α) × Bool
  | issued, [] => (issued.reverse, true)
  | issued, b :: rest =>
    if ok b then uploadLoop ok (b :: issued) rest
    else ((b :: issued).reverse, false)

/-- _upload_to_pinecone, source lines 206-228: batches of 100, issued in
order until the first failure; returns the list of issued batch calls and
the Bool result. -/
def upload_to_pinecone {α : Type} (ok : List α → Bool) (vectors : List α) :
    List (List α) × Bool :=
  uploadLoop ok [] (batchesOf 100 vectors)

/-! ### process_all_files (source lines 107-204) and main (531-575) -/

/-- One filesystem entry under the data directory: path segments, extension
and stat size for the filter, an is_file flag, and the text the content
loader produces for it. -/
structure FileEntry where
  parts : List String
  suffix : String
  size? : Option Nat
  is_file : Bool
  content : List Char
deriving DecidableEq

structure RunResult where
  success : Bool
  error : Option String
  processed_files : Nat
  total_chunks : Nat
deriving DecidableEq

/-- process_all_files, source lines 107-204, restricted to the control flow
the claims depend on: the missing-directory early return at lines 111-113,
and otherwise the per-file loop counting processed files and chunks (files
failing the filter or with whitespace-only content are skipped).  The
ChromaDB add and optional Pinecone upload do not change these counts. -/
def process_all_files (dataDirExists : Bool) (files : List FileEntry) :
    RunResult :=
  if dataDirExists then
    let st := files.foldl
      (fun (st : Nat × Nat) (f : FileEntry) =>
        if f.is_file && should_process_file f.parts f.suffix f.size? then
          if pyStrip f.content = [] then st
          else (st.1 + 1, st.2 + ((get_chunks f.content 1000 200).getD []).length)
        else st)
      (0, 0)
    { success := true, error := none,
      processed_files := st.1, total_chunks := st.2 }
  else
    { success := false, error := some "Data directory not found",
      processed_files := 0, total_chunks := 0 }

/-- The exit status of main, source lines 570-572: sys.exit(1) when the
result dict has success false, otherwise a normal exit 0. -/
def main_exit_code (dataDirExists : Bool) (files : List FileEntry) : Nat :=
  if (process_all_files dataDirExists files).success then 0 else 1

/-! ### process_repo_incremental (source lines 327-432) -/

/-- One record of the ChromaDB collection: the chunk id (the md5 input
string, see encodeChunkId) and the metadata fields the claims mention. -/
structure ChunkRec where
  id : List Char
  file_path : List Char
  file_hash : List Char
  chunk_index : Nat
deriving DecidableEq

/-- One changed file of an incremental run: its path relative to the repo
root, whether it exists on disk, the filter inputs, and the content and
content hash the loader and hasher produce for it. -/
structure IncFile where
  rel_path : List Char
  exists_on_disk : Bool
  is_file : Bool
  parts : List String
  suffix : String
  size? : Option Nat
  content : List Char
  file_hash : List Char
deriving DecidableEq

/-- _remove_file_chunks, source lines 434-442: the body is a bare pass
inside a try, so the collection is returned unchanged, although the
docstring says it removes the existing chunks of the file. -/
def remove_file_chunks (index : List ChunkRec) (file_path : List Char)
    (repo_url : List Char) : List ChunkRec :=
  index

/-- The body of the per-file loop of process_repo_incremental, source lines
365-403.  State: the collection (mutated by _remove_file_chunks when not
force_rebuild), the pending documents to add at line 408, and the
processed-files counter. -/
def processIncFile (repo_url : List Char) (force_rebuild : Bool)
    (st : List ChunkRec × List ChunkRec × Nat) (f : IncFile) :
    List ChunkRec × List ChunkRec × Nat :=
  if f.is_file && should_process_file f.parts f.suffix f.size? then
    if pyStrip f.content = [] then st
    else
      let index2 :=
        if force_rebuild then st.1
        else remove_file_chunks st.1 f.rel_path repo_url
      let chunks := (get_chunks f.content 1000 200).getD []
      let recs := (List.range chunks.length).map (fun i =>
        ({ id := encodeChunkId repo_url f.rel_path i f.file_hash,
           file_path := f.rel_path, file_hash := f.file_hash,
           chunk_index := i } : ChunkRec))
      (index2, st.2.1 ++ recs, st.2.2 + 1)
  else st

/-- process_repo_incremental, source lines 327-432, over an abstract
repository state: index is the collection before the run, repo_files the
files found by rglob for a full rebuild, changed_files the optional changed
list.  Cloning, pulling and the surrounding try/except are elided; the
result is the collection after the final collection.add (line 406-412,
appending all pending documents) and the processed-files count. -/
def process_repo_incremental (index : List ChunkRec) (repo_url : List Char)
    (changed_files : Option (List IncFile)) (force_rebuild : Bool)
    (repo_files : List IncFile) : List ChunkRec × Nat :=
  let files_to_process :=
    if force_rebuild || (changed_files.getD []).isEmpty then repo_files
    else (changed_files.getD []).filter (fun f => f.exists_on_disk)
  let st := files_to_process.foldl (processIncFile repo_url force_rebuild)
    (index, [], 0)
  (st.1 ++ st.2.1, st.2.2)

/-- Concrete pre-existing collection record for the incremental scenario: a
chunk of file f.txt indexed under the digest of the old file content. -/
def c1_old_rec : ChunkRec :=
  { id := encodeChunkId "repo".data "f.txt".data 0 "olddigest".data,
    file_path := "f.txt".data, file_hash := "olddigest".data,
    chunk_index := 0 }

/-- Concrete changed file for the incremental scenario: f.txt exists on
disk with new content and therefore a new digest. -/
def c1_changed_file : IncFile :=
  { rel_path := "f.txt".data, exists_on_disk := true, is_file := true,
    parts := ["f.txt"], suffix := ".txt", size? := some 5,
    content := "hello".data, file_hash := "newdigest".data }

/-- Upsert behaviour for the batch-failure scenario: the call for a batch
containing the vector 0 raises, every other call succeeds. -/
def c5_fail_first (b : List Nat) : Bool := ! b.contains 0

end CIVP

namespace CIVP

/-! ### Basic lemmas about the helpers -/

theorem dropWhile_eq_self_of_none {p : Char → Bool} :
    ∀ {l : List Char}, (∀ c ∈ l, p c = false) → l.dropWhile p = l
  | [], _ => rfl
  | c :: rest, h => by
    have hc : p c = false := h c (List.mem_cons_self c rest)
    simp [List.dropWhile, hc]

theorem pyStrip_of_no_space {l : List Char}
    (h : ∀ c ∈ l, pyIsSpace c = false) : pyStrip l = l := by
  unfold pyStrip
  rw [dropWhile_eq_self_of_none h]
  rw [dropWhile_eq_self_of_none (fun c hc => h c (List.mem_reverse.mp hc))]
  exact List.reverse_reverse l

theorem lastDotIdx_eq_none {l : List Char} (h : '.' ∉ l) :
    lastDotIdx l = none := by
  induction l with
  | nil => rfl
  | cons c rest ih =>
    have hc : ¬ (c == '.') = true := by
      simp only [beq_iff_eq]
      intro he
      exact h (he ▸ List.mem_cons_self c rest)
    have hr : lastDotIdx rest = none :=
      ih (fun hm => h (List.mem_cons_of_mem c hm))
    simp [lastDotIdx, hr, hc]

theorem lastDotIdx_lt_length : ∀ {l : List Char} {j : Nat},
    lastDotIdx l = some j → j < l.length
  | [], _, h => by simp [lastDotIdx] at h
  | c :: rest, j, h => by
    simp only [lastDotIdx] at h
    cases hr : lastDotIdx rest with
    | some j0 =>
      rw [hr] at h
      cases h
      have := lastDotIdx_lt_length hr
      simp only [List.length_cons]
      omega
    | none =>
      rw [hr] at h
      by_cases hc : (c == '.') = true
      · rw [if_pos hc] at h
        cases h
        simp
      · rw [if_neg hc] at h
        cases h

theorem rfindDot_bounds {content : List Char} {start stop p : Nat}
    (h : rfindDot content start stop = some p) : start ≤ p ∧ p < stop := by
  unfold rfindDot at h
  cases hl : lastDotIdx ((content.drop start).take (stop - start)) with
  | none => rw [hl] at h; cases h
  | some j =>
    rw [hl] at h
    simp only [Option.map_some'] at h
    have hpj : p = j + start := (Option.some.inj h).symm
    have hj := lastDotIdx_lt_length hl
    rw [List.length_take] at hj
    have hjs : j < stop - start := lt_of_lt_of_le hj (min_le_left _ _)
    omega

theorem rfindDot_eq_none {content : List Char} {start stop : Nat}
    (h : '.' ∉ content) : rfindDot content start stop = none := by
  unfold rfindDot
  rw [lastDotIdx_eq_none]
  · rfl
  · intro hm
    exact h (List.mem_of_mem_drop (List.mem_of_mem_take hm))

/-! ### Lemmas about winEnd -/

theorem winEnd_spec (content : List Char) (cs start : Nat) :
    winEnd content cs start = min (start + cs) content.length ∨
    (∃ p, rfindDot content start (min (start + cs) content.length) = some p ∧
      start + cs / 2 < p ∧ winEnd content cs start = p + 1 ∧
      min (start + cs) content.length < content.length) := by
  unfold winEnd
  split
  next h0 =>
    split
    next p hr =>
      split
      next hsn => exact Or.inr ⟨p, hr, hsn, rfl, h0⟩
      next hsn => exact Or.inl rfl
    next hr => exact Or.inl rfl
  next h0 => exact Or.inl rfl

theorem winEnd_le (content : List Char) (cs start : Nat) :
    winEnd content cs start ≤ content.length := by
  rcases winEnd_spec content cs start with h | ⟨p, hr, hsn, he, hlt⟩
  · omega
  · have hb := rfindDot_bounds hr
    omega

theorem winEnd_gt (content : List Char) (cs start : Nat)
    (hcs : 0 < cs) (hs : start < content.length) :
    start < winEnd content cs start := by
  rcases winEnd_spec content cs start with h | ⟨p, hr, hsn, he, hlt⟩
  · omega
  · have hb := rfindDot_bounds hr
    omega

theorem winEnd_lower (content : List Char) (cs start : Nat)
    (h : winEnd content cs start < content.length) :
    start + cs / 2 + 2 ≤ winEnd content cs start ∨
      winEnd content cs start = start + cs := by
  rcases winEnd_spec content cs start with hsp | ⟨p, hr, hsn, he, hlt⟩
  · right; omega
  · left; omega

/-! ### Lemmas about chunkLoop -/

theorem chunkLoop_ge {content : List Char} {cs ov start : Nat}
    (h : content.length ≤ start) (fuel : Nat) (acc : List (List Char)) :
    chunkLoop content cs ov fuel start acc = some acc.reverse := by
  cases fuel with
  | zero => simp [chunkLoop, Nat.not_lt.mpr h]
  | succ n => simp [chunkLoop, Nat.not_lt.mpr h]

theorem chunkLoop_pos {content : List Char} {cs ov : Nat} (fuel : Nat)
    (start : Nat) (acc : List (List Char))
    (hs : start < content.length) :
    chunkLoop content cs ov (fuel + 1) start acc =
      chunkLoop content cs ov fuel
        (if winEnd content cs start < content.length
          then winEnd content cs start - ov else winEnd content cs start)
        (if pyStrip ((content.drop start).take (winEnd content cs start - start)) = []
          then acc
          else pyStrip ((content.drop start).take (winEnd content cs start - start)) :: acc) := by
  simp [chunkLoop, hs]

theorem chunkLoop_acc (content : List Char) (cs ov : Nat) :
    ∀ (fuel start : Nat) (acc : List (List Char)),
      chunkLoop content cs ov fuel start acc =
        (chunkLoop content cs ov fuel start []).map (fun t => acc.reverse ++ t) := by
  intro fuel
  induction fuel with
  | zero =>
    intro start acc
    by_cases hs : start < content.length
    · simp [chunkLoop, hs]
    · simp [chunkLoop, hs]
  | succ n ih =>
    intro start acc
    by_cases hs : start < content.length
    · rw [chunkLoop_pos n start acc hs, chunkLoop_pos n start [] hs]
      rw [ih
        (if winEnd content cs start < content.length
          then winEnd content cs start - ov else winEnd content cs start)
        (if pyStrip ((content.drop start).take (winEnd content cs start - start)) = []
          then acc
          else pyStrip ((content.drop start).take (winEnd content cs start - start)) :: acc)]
      rw [ih
        (if winEnd content cs start < content.length
          then winEnd content cs start - ov else winEnd content cs start)
        (if pyStrip ((content.drop start).take (winEnd content cs start - start)) = []
          then ([] : List (List Char))
          else [pyStrip ((content.drop start).take (winEnd content cs start - start))])]
      cases chunkLoop content cs ov n
          (if winEnd content cs start < content.length
            then winEnd content cs start - ov else winEnd content cs start) [] with
      | none => simp
      | some t =>
        by_cases hc :
            pyStrip ((content.drop start).take (winEnd content cs start - start)) = []
        · simp [hc]
        · simp [hc]
    · rw [chunkLoop_ge (Nat.not_lt.mp hs), chunkLoop_ge (Nat.not_lt.mp hs)]
      simp

theorem chunkLoop_isSome (content : List Char) :
    ∀ (fuel start : Nat) (acc : List (List Char)),
      content.length - start < fuel →
      (chunkLoop content 1000 200 fuel start acc).isSome = true := by
  intro fuel
  induction fuel with
  | zero => intro start acc h; omega
  | succ n ih =>
    intro start acc h
    by_cases hs : start < content.length
    · rw [chunkLoop_pos n start acc hs]
      apply ih
      have hle := winEnd_le content 1000 start
      have hgt := winEnd_gt content 1000 start (by norm_num) hs
      by_cases he : winEnd content 1000 start < content.length
      · have hlow := winEnd_lower content 1000 start he
        norm_num at hlow
        rw [if_pos he]
        omega
      · rw [if_neg he]
        omega
    · rw [chunkLoop_ge (Nat.not_lt.mp hs)]
      rfl

theorem regionsJoin_cons (ov : Nat) (c : List Char) {t : List (List Char)}
    (ht : t ≠ []) :
    regionsJoin ov (c :: t) = c.take (c.length - ov) ++ regionsJoin ov t := by
  cases t with
  | nil => exact absurd rfl ht
  | cons c2 rest => rfl

theorem chunkLoop_coverage (content : List Char)
    (hws : ∀ c ∈ content, pyIsSpace c = false) :
    ∀ (fuel start : Nat), start < content.length →
      ∀ r, chunkLoop content 1000 200 fuel start [] = some r →
        r ≠ [] ∧ regionsJoin 200 r = content.drop start := by
  intro fuel
  induction fuel with
  | zero =>
    intro start hs r h
    simp [chunkLoop, hs] at h
  | succ n ih =>
    intro start hs r h
    rw [chunkLoop_pos n start [] hs] at h
    have hle : winEnd content 1000 start ≤ content.length :=
      winEnd_le content 1000 start
    have hgt : start < winEnd content 1000 start :=
      winEnd_gt content 1000 start (by norm_num) hs
    have hmem : ∀ c ∈ (content.drop start).take (winEnd content 1000 start - start),
        pyIsSpace c = false :=
      fun c hc => hws c (List.mem_of_mem_drop (List.mem_of_mem_take hc))
    have hwlen :
        ((content.drop start).take (winEnd content 1000 start - start)).length =
          winEnd content 1000 start - start := by
      rw [List.length_take, List.length_drop]
      omega
    have hwne : (content.drop start).take (winEnd content 1000 start - start) ≠ [] := by
      intro hnil
      rw [hnil] at hwlen
      simp at hwlen
      omega
    rw [pyStrip_of_no_space hmem, if_neg hwne] at h
    rw [chunkLoop_acc] at h
    cases hcl : chunkLoop content 1000 200 n
        (if winEnd content 1000 start < content.length
          then winEnd content 1000 start - 200 else winEnd content 1000 start) [] with
    | none =>
      rw [hcl] at h
      cases h
    | some t =>
      rw [hcl] at h
      simp only [Option.map_some', List.reverse_cons, List.reverse_nil,
        List.nil_append, List.singleton_append] at h
      have hrt : r =
          (content.drop start).take (winEnd content 1000 start - start) :: t :=
        (Option.some.inj h).symm
      by_cases hs2 : (if winEnd content 1000 start < content.length
          then winEnd content 1000 start - 200 else winEnd content 1000 start) <
            content.length
      · obtain ⟨htne, hjoin⟩ := ih _ hs2 t hcl
        have helt : winEnd content 1000 start < content.length := by
          by_contra hecontra
          rw [if_neg hecontra] at hs2
          omega
        rw [if_pos helt] at hjoin
        have hlow := winEnd_lower content 1000 start helt
        norm_num at hlow
        have he502 : start + 502 ≤ winEnd content 1000 start := by omega
        subst hrt
        refine ⟨by simp, ?_⟩
        rw [regionsJoin_cons 200 _ htne, hwlen, List.take_take]
        have hmin : min (winEnd content 1000 start - start - 200)
            (winEnd content 1000 start - start) =
              winEnd content 1000 start - start - 200 := by omega
        rw [hmin, hjoin]
        have hdd : (content.drop start).drop (winEnd content 1000 start - start - 200) =
            content.drop (winEnd content 1000 start - 200) := by
          rw [List.drop_drop]
          have harith : start + (winEnd content 1000 start - start - 200) =
              winEnd content 1000 start - 200 := by omega
          rw [harith]
        rw [← hdd, List.take_append_drop]
      · have hse : ¬ winEnd content 1000 start < content.length := by
          intro helt
          rw [if_pos helt] at hs2
          omega
        rw [if_neg hse] at hcl hs2
        rw [chunkLoop_ge (by omega) n []] at hcl
        have ht0 : t = [] := by
          simpa using (Option.some.inj hcl)
        subst ht0
        subst hrt
        refine ⟨by simp, ?_⟩
        have helen : winEnd content 1000 start = content.length := by omega
        rw [helen]
        show (content.drop start).take (content.length - start) = content.drop start
        apply List.take_of_length_le
        rw [List.length_drop]

theorem winEnd_no_dot {content : List Char} (h : '.' ∉ content) (cs start : Nat) :
    winEnd content cs start = min (start + cs) content.length := by
  unfold winEnd
  rw [rfindDot_eq_none h]
  split <;> rfl

/-- Concrete run of get_chunks on a 2500 character text with no period and
no whitespace: windows are [0,1000), [800,1800), [1600,2500). -/
theorem get_chunks_2500 (content : List Char) (h : content.length = 2500)
    (hd : '.' ∉ content) (hw : ∀ c ∈ content, pyIsSpace c = false) :
    get_chunks content 1000 200 =
      some [content.take 1000, (content.drop 800).take 1000,
        (content.drop 1600).take 900] := by
  have hmem : ∀ (s k : Nat), ∀ c ∈ (content.drop s).take k, pyIsSpace c = false :=
    fun s k c hc => hw c (List.mem_of_mem_drop (List.mem_of_mem_take hc))
  have hstrip : ∀ s k : Nat, pyStrip ((content.drop s).take k) = (content.drop s).take k :=
    fun s k => pyStrip_of_no_space (hmem s k)
  have hne : ∀ s k : Nat, k ≠ 0 → s + k ≤ 2500 → (content.drop s).take k ≠ [] := by
    intro s k hk hsk hnil
    have hlen := congrArg List.length hnil
    rw [List.length_take, List.length_drop, h] at hlen
    simp at hlen
    omega
  have hstrip0 : pyStrip (content.take 1000) = content.take 1000 := by
    have hx := hstrip 0 1000
    simpa using hx
  have hne0 : content.take 1000 ≠ [] := by
    have hx := hne 0 1000 (by norm_num) (by norm_num)
    simpa using hx
  have hw1 : winEnd content 1000 0 = 1000 := by
    rw [winEnd_no_dot hd, h]
    omega
  have hw2 : winEnd content 1000 800 = 1800 := by
    rw [winEnd_no_dot hd, h]
    omega
  have hw3 : winEnd content 1000 1600 = 2500 := by
    rw [winEnd_no_dot hd, h]
    omega
  calc get_chunks content 1000 200
      = chunkLoop content 1000 200 (2500 + 1) 0 [] := by
        unfold get_chunks
        rw [if_neg (by omega), h]
    _ = chunkLoop content 1000 200 2500 800 [content.take 1000] := by
        rw [chunkLoop_pos 2500 0 [] (by omega), hw1, h]
        simp only [List.drop_zero, Nat.sub_zero]
        rw [hstrip0, if_neg hne0]
        norm_num
    _ = chunkLoop content 1000 200 (2499 + 1) 800 [content.take 1000] := by norm_num
    _ = chunkLoop content 1000 200 2499 1600
          [(content.drop 800).take 1000, content.take 1000] := by
        rw [chunkLoop_pos 2499 800 _ (by omega), hw2, h]
        norm_num
        rw [hstrip 800 1000, if_neg (hne 800 1000 (by norm_num) (by norm_num))]
    _ = chunkLoop content 1000 200 (2498 + 1) 1600
          [(content.drop 800).take 1000, content.take 1000] := by norm_num
    _ = chunkLoop content 1000 200 2498 2500
          [(content.drop 1600).take 900, (content.drop 800).take 1000,
            content.take 1000] := by
        rw [chunkLoop_pos 2498 1600 _ (by omega), hw3, h]
        norm_num
        rw [hstrip 1600 900, if_neg (hne 1600 900 (by norm_num) (by norm_num))]
    _ = some [content.take 1000, (content.drop 800).take 1000,
          (content.drop 1600).take 900] := by
        rw [chunkLoop_ge (by omega) 2498 _]
        rfl

/-- Concrete run of get_chunks on a 1001 character text whose first character
is a space and whose remaining 1000 characters contain no period and no
whitespace: the leading space is stripped from the first chunk. -/
theorem get_chunks_space_head (t : List Char) (ht : t.length = 1000)
    (hd : '.' ∉ t) (hw : ∀ c ∈ t, pyIsSpace c = false) :
    get_chunks (' ' :: t) 1000 200 = some [t.take 999, t.drop 799] := by
  have hlen : (' ' :: t).length = 1001 := by simp [ht]
  have hdot : '.' ∉ (' ' :: t) := by
    intro hm
    rcases List.mem_cons.mp hm with h1 | h2
    · cases h1
    · exact hd h2
  have hmem : ∀ (s k : Nat), ∀ c ∈ (t.drop s).take k, pyIsSpace c = false :=
    fun s k c hc => hw c (List.mem_of_mem_drop (List.mem_of_mem_take hc))
  have hw1 : winEnd (' ' :: t) 1000 0 = 1000 := by
    rw [winEnd_no_dot hdot, hlen]
    omega
  have hw2 : winEnd (' ' :: t) 1000 800 = 1001 := by
    rw [winEnd_no_dot hdot, hlen]
    omega
  have hst1 : pyStrip ((' ' :: t).take 1000) = t.take 999 := by
    show pyStrip (' ' :: t.take 999) = t.take 999
    have hcons : pyStrip (' ' :: t.take 999) = pyStrip (t.take 999) := rfl
    rw [hcons]
    exact pyStrip_of_no_space (fun c hc => hw c (List.mem_of_mem_take hc))
  have hne1 : t.take 999 ≠ [] := by
    intro hnil
    have hl := congrArg List.length hnil
    rw [List.length_take, ht] at hl
    simp at hl
  have hst2 : pyStrip ((t.drop 799).take 201) = t.drop 799 := by
    have htake : (t.drop 799).take 201 = t.drop 799 := by
      apply List.take_of_length_le
      rw [List.length_drop, ht]
    rw [htake]
    exact pyStrip_of_no_space (fun c hc => hw c (List.mem_of_mem_drop hc))
  have hne2 : t.drop 799 ≠ [] := by
    intro hnil
    have hl := congrArg List.length hnil
    rw [List.length_drop, ht] at hl
    simp at hl
  calc get_chunks (' ' :: t) 1000 200
      = chunkLoop (' ' :: t) 1000 200 (1001 + 1) 0 [] := by
        unfold get_chunks
        rw [if_neg (by omega), hlen]
    _ = chunkLoop (' ' :: t) 1000 200 1001 800 [t.take 999] := by
        rw [chunkLoop_pos 1001 0 [] (by omega), hw1, hlen]
        simp only [List.drop_zero, Nat.sub_zero]
        rw [hst1, if_neg hne1]
        norm_num
    _ = chunkLoop (' ' :: t) 1000 200 (1000 + 1) 800 [t.take 999] := by norm_num
    _ = chunkLoop (' ' :: t) 1000 200 1000 1001 [t.drop 799, t.take 999] := by
        rw [chunkLoop_pos 1000 800 _ (by omega), hw2, hlen]
        norm_num
        rw [hst2, if_neg hne2]
    _ = some [t.take 999, t.drop 799] := by
        rw [chunkLoop_ge (by omega) 1000 _]
        rfl

theorem replicate_a_no_space (n : Nat) :
    ∀ c ∈ List.replicate n 'a', pyIsSpace c = false :=
  fun c hc => by rw [List.eq_of_mem_replicate hc]; decide

theorem replicate_a_no_dot (n : Nat) : '.' ∉ List.replicate n 'a' :=
  fun hm => absurd (List.eq_of_mem_replicate hm) (by decide)

/-! ### Claim C3: the 2500 character, period-free scenario -/

/-- C3 counterexample: on the concrete 2500 character period-free text
consisting of 2500 letters a, get_chunks with chunk_size 1000 and overlap
200 returns chunks of lengths 1000, 1000, 900, not 1000, 1000, 500 as the
claim states. -/
theorem C3_counterexample :
    ((get_chunks (List.replicate 2500 'a') 1000 200).getD []).map List.length =
      [1000, 1000, 900] ∧
    ([1000, 1000, 900] : List Nat) ≠ [1000, 1000, 500] := by
  constructor
  · rw [get_chunks_2500 (List.replicate 2500 'a') (by rw [List.length_replicate])
      (replicate_a_no_dot 2500) (replicate_a_no_space 2500)]
    simp only [Option.getD_some, List.map_cons, List.map_nil, List.length_take,
      List.length_drop, List.length_replicate]
    norm_num
  · decide

/-- C3 amended: for every text of exactly 2500 characters containing no
period and no whitespace character, get_chunks with chunk_size 1000 and
overlap 200 returns exactly three chunks, the windows [0,1000), [800,1800),
[1600,2500) obtained by advancing each start to the previous end minus the
overlap, whose lengths are 1000, 1000 and 900 (the third window is the 900
character tail left after start 1600, not 500). -/
theorem C3_chunks_of_2500 :
    ∀ content : List Char, content.length = 2500 → '.' ∉ content →
      (∀ c ∈ content, pyIsSpace c = false) →
      get_chunks content 1000 200 =
        some [content.take 1000, (content.drop 800).take 1000,
          (content.drop 1600).take 900] ∧
      [(content.take 1000).length, ((content.drop 800).take 1000).length,
        ((content.drop 1600).take 900).length] = [1000, 1000, 900] := by
  intro content h hd hw
  refine ⟨get_chunks_2500 content h hd hw, ?_⟩
  simp [List.length_take, List.length_drop, h]

/-- Witness for C3 at the concrete input of 2500 letters a. -/
theorem C3_witness :
    (List.replicate 2500 'a').length = 2500 ∧
    (get_chunks (List.replicate 2500 'a') 1000 200 =
      some [(List.replicate 2500 'a').take 1000,
        ((List.replicate 2500 'a').drop 800).take 1000,
        ((List.replicate 2500 'a').drop 1600).take 900] ∧
    [((List.replicate 2500 'a').take 1000).length,
      (((List.replicate 2500 'a').drop 800).take 1000).length,
      (((List.replicate 2500 'a').drop 1600).take 900).length] =
        [1000, 1000, 900]) :=
  ⟨by rw [List.length_replicate],
    C3_chunks_of_2500 (List.replicate 2500 'a') (by rw [List.length_replicate])
      (replicate_a_no_dot 2500) (replicate_a_no_space 2500)⟩

/-- C7 counterexample: for the 1001 character input made of one leading
space followed by 1000 letters a, the leading space is stripped from the
first chunk although position 0 lies in no overlap window, so concatenating
the non-overlap regions of the returned chunks yields the 1000 letters a
and not the original text. -/
theorem C7_counterexample :
    get_chunks (' ' :: List.replicate 1000 'a') 1000 200 =
      some [List.replicate 999 'a', List.replicate 201 'a'] ∧
    regionsJoin 200 [List.replicate 999 'a', List.replicate 201 'a'] =
      List.replicate 1000 'a' ∧
    (List.replicate 1000 'a' : List Char) ≠ ' ' :: List.replicate 1000 'a' := by
  refine ⟨?_, ?_, ?_⟩
  · rw [get_chunks_space_head (List.replicate 1000 'a')
      (by rw [List.length_replicate])
      (replicate_a_no_dot 1000) (replicate_a_no_space 1000)]
    rw [List.take_replicate, List.drop_replicate]
    norm_num
  · show (List.replicate 999 'a').take ((List.replicate 999 'a').length - 200) ++
        List.replicate 201 'a' = List.replicate 1000 'a'
    rw [List.length_replicate, List.take_replicate]
    norm_num
  · intro hcontra
    have hl := congrArg List.length hcontra
    rw [List.length_replicate, List.length_cons, List.length_replicate] at hl
    omega

/-! ### Claim C4: termination of get_chunks with default parameters -/

/-- C4: for every input text, get_chunks with the default parameters
chunk_size = 1000 and overlap = 200 terminates (the fuelled loop never runs
out of fuel), and the window start strictly advances on every loop
iteration: from any start below the length of the text, the next start
computed by the loop body is strictly larger. -/
theorem C4_get_chunks_default_terminates : ∀ content : List Char,
    (get_chunks content 1000 200).isSome = true ∧
    ∀ start, start < content.length →
      start < (if winEnd content 1000 start < content.length
        then winEnd content 1000 start - 200 else winEnd content 1000 start) := by
  intro content
  constructor
  · unfold get_chunks
    by_cases hlen : content.length ≤ 1000
    · rw [if_pos hlen]
      rfl
    · rw [if_neg hlen]
      exact chunkLoop_isSome content (content.length + 1) 0 [] (by omega)
  · intro start hs
    have hgt := winEnd_gt content 1000 start (by norm_num) hs
    by_cases he : winEnd content 1000 start < content.length
    · have hlow := winEnd_lower content 1000 start he
      norm_num at hlow
      rw [if_pos he]
      omega
    · rw [if_neg he]
      exact hgt

/-- Witness for C4 at the concrete input "a". -/
theorem C4_witness :
    (get_chunks ['a'] 1000 200).isSome = true ∧
    0 < (if winEnd ['a'] 1000 0 < (['a'] : List Char).length
      then winEnd ['a'] 1000 0 - 200 else winEnd ['a'] 1000 0) :=
  ⟨(C4_get_chunks_default_terminates ['a']).1,
    (C4_get_chunks_default_terminates ['a']).2 0 (by decide)⟩

/-! ### Claim C6: short input returns a single chunk -/

/-- C6 counterexample: on the two-character input consisting of a space and
the letter a, get_chunks returns the input unchanged as the single chunk,
not the whitespace-trimmed text, so the claim that the chunk equals the
trimmed input is false. -/
theorem C6_counterexample :
    get_chunks [' ', 'a'] 1000 200 = some [[' ', 'a']] ∧
    pyStrip [' ', 'a'] = ['a'] ∧ ([' ', 'a'] : List Char) ≠ ['a'] := by
  refine ⟨rfl, by decide, by decide⟩

/-- C6 amended: for every text whose length is at most chunk_size, get_chunks
returns a list containing exactly one chunk, and that chunk equals the input
text exactly, with no whitespace trimming (the source returns [content]
without calling strip in the short-circuit branch, line 304-305). -/
theorem C6_small_input_single_chunk :
    ∀ (content : List Char) (cs ov : Nat), content.length ≤ cs →
      get_chunks content cs ov = some [content] := by
  intro content cs ov h
  unfold get_chunks
  rw [if_pos h]

/-- Witness for C6 at the concrete input "ab". -/
theorem C6_witness :
    (['a', 'b'] : List Char).length ≤ 1000 ∧
    get_chunks ['a', 'b'] 1000 200 = some [['a', 'b']] :=
  ⟨by decide, C6_small_input_single_chunk ['a', 'b'] 1000 200 (by decide)⟩

/-! ### Claim C7: coverage of the input by the chunk sequence -/

/-- C7 amended: for every input text containing no whitespace characters,
concatenating the non-overlap regions of the chunks returned by get_chunks
with the default parameters reconstructs the original text.  For texts with
whitespace at window boundaries the claim as stated fails, because the
strip call drops boundary whitespace that lies outside every overlap
window (see the counterexample). -/
theorem C7_chunk_coverage :
    ∀ content : List Char, (∀ c ∈ content, pyIsSpace c = false) →
      ∀ r, get_chunks content 1000 200 = some r → regionsJoin 200 r = content := by
  intro content hws r h
  unfold get_chunks at h
  by_cases hlen : content.length ≤ 1000
  · rw [if_pos hlen] at h
    have hr : r = [content] := (Option.some.inj h).symm
    subst hr
    rfl
  · rw [if_neg hlen] at h
    have h0 : 0 < content.length := by omega
    obtain ⟨-, hj⟩ := chunkLoop_coverage content hws (content.length + 1) 0 h0 r h
    simpa using hj

/-- Witness for C7 at the concrete input "ab". -/
theorem C7_witness :
    (∀ c ∈ (['a', 'b'] : List Char), pyIsSpace c = false) ∧
    regionsJoin 200 [['a', 'b']] = ['a', 'b'] :=
  ⟨by decide, C7_chunk_coverage ['a', 'b'] (by decide) [['a', 'b']] rfl⟩

/-! ### Lemmas about the decimal representation -/

theorem natDigitsAux_congr : ∀ (n f1 f2 : Nat), n < f1 → n < f2 →
    natDigitsAux f1 n = natDigitsAux f2 n := by
  intro n
  induction n using Nat.strong_induction_on with
  | _ n ih =>
    intro f1 f2 h1 h2
    cases f1 with
    | zero => omega
    | succ a =>
      cases f2 with
      | zero => omega
      | succ b =>
        by_cases h : n < 10
        · simp [natDigitsAux, h]
        · simp only [natDigitsAux, if_neg h]
          rw [ih (n / 10) (Nat.div_lt_self (by omega) (by norm_num)) a b
            (by omega) (by omega)]

theorem natDigits_eq (n : Nat) :
    natDigits n = if n < 10 then [Nat.digitChar n]
      else natDigits (n / 10) ++ [Nat.digitChar (n % 10)] := by
  by_cases h : n < 10
  · rw [if_pos h]
    show natDigitsAux (n + 1) n = _
    simp [natDigitsAux, h]
  · rw [if_neg h]
    show natDigitsAux (n + 1) n = _
    have hstep : natDigitsAux (n + 1) n =
        natDigitsAux n (n / 10) ++ [Nat.digitChar (n % 10)] := by
      simp [natDigitsAux, h]
    rw [hstep,
      show natDigits (n / 10) = natDigitsAux (n / 10 + 1) (n / 10) from rfl,
      natDigitsAux_congr (n / 10) n (n / 10 + 1)
        (Nat.div_lt_self (by omega) (by norm_num)) (by omega)]

theorem digitVal_digitChar {m : Nat} (h : m < 10) :
    digitVal (Nat.digitChar m) = m := by
  interval_cases m <;> decide

theorem digitChar_ne_underscore {m : Nat} (h : m < 10) :
    Nat.digitChar m ≠ '_' := by
  interval_cases m <;> decide

theorem natDigits_decode : ∀ (n acc : Nat),
    List.foldl (fun a c => 10 * a + digitVal c) acc (natDigits n) =
      acc * 10 ^ (natDigits n).length + n := by
  intro n
  induction n using Nat.strong_induction_on with
  | _ n ih =>
    intro acc
    by_cases h : n < 10
    · rw [natDigits_eq, if_pos h]
      simp only [List.foldl_cons, List.foldl_nil, List.length_cons,
        List.length_nil]
      rw [digitVal_digitChar h]
      ring_nf
    · rw [natDigits_eq, if_neg h]
      rw [List.foldl_append]
      rw [ih (n / 10) (Nat.div_lt_self (by omega) (by norm_num)) acc]
      simp only [List.foldl_cons, List.foldl_nil, List.length_append,
        List.length_cons, List.length_nil]
      rw [digitVal_digitChar (Nat.mod_lt n (by norm_num))]
      calc 10 * (acc * 10 ^ (natDigits (n / 10)).length + n / 10) + n % 10
          = acc * (10 ^ (natDigits (n / 10)).length * 10) +
              (10 * (n / 10) + n % 10) := by ring
        _ = acc * 10 ^ ((natDigits (n / 10)).length + (0 + 1)) + n := by
              rw [Nat.div_add_mod]
              ring_nf

theorem natDigits_inj {m n : Nat} (h : natDigits m = natDigits n) : m = n := by
  have hm := natDigits_decode m 0
  have hn := natDigits_decode n 0
  rw [h] at hm
  simp only [Nat.zero_mul] at hm hn
  omega

theorem natDigits_no_underscore : ∀ n : Nat, '_' ∉ natDigits n := by
  intro n
  induction n using Nat.strong_induction_on with
  | _ n ih =>
    by_cases h : n < 10
    · rw [natDigits_eq, if_pos h]
      intro hm
      exact absurd (List.mem_singleton.mp hm).symm (digitChar_ne_underscore h)
    · rw [natDigits_eq, if_neg h]
      intro hm
      rcases List.mem_append.mp hm with h1 | h2
      · exact ih (n / 10) (Nat.div_lt_self (by omega) (by norm_num)) h1
      · exact absurd (List.mem_singleton.mp h2).symm
          (digitChar_ne_underscore (Nat.mod_lt n (by norm_num)))

theorem append_sep_inj {sep : Char} :
    ∀ (a1 : List Char) {a2 r1 r2 : List Char}, sep ∉ a1 → sep ∉ a2 →
      a1 ++ sep :: r1 = a2 ++ sep :: r2 → a1 = a2 ∧ r1 = r2 := by
  intro a1
  induction a1 with
  | nil =>
    intro a2 r1 r2 h1 h2 he
    cases a2 with
    | nil =>
      simp only [List.nil_append] at he
      injection he with _ he2
      exact ⟨rfl, he2⟩
    | cons b t =>
      simp only [List.nil_append, List.cons_append] at he
      injection he with hb _
      exfalso
      apply h2
      rw [hb]
      exact List.mem_cons_self b t
  | cons b t ih =>
    intro a2 r1 r2 h1 h2 he
    cases a2 with
    | nil =>
      simp only [List.cons_append, List.nil_append] at he
      injection he with hb _
      exfalso
      apply h1
      rw [← hb]
      exact List.mem_cons_self b t
    | cons b2 t2 =>
      simp only [List.cons_append] at he
      injection he with hb ht
      obtain ⟨hteq, hreq⟩ := ih (fun hm => h1 (List.mem_cons_of_mem b hm))
        (fun hm => h2 (List.mem_cons_of_mem b2 hm)) ht
      exact ⟨by rw [hb, hteq], hreq⟩

/-! ### Claim C2: unambiguity of the chunk-id encoding -/

/-- C2 counterexample: the tuples (scope a_b, path c, index 0, digest d) and
(scope a, path b_c, index 0, digest d) are distinct but concatenate to the
same string a_b_c_0_d, because the underscore separator also occurs inside
the scope, so the claim that the concatenated strings of distinct tuples
always differ is false. -/
theorem C2_counterexample :
    encodeChunkId "a_b".data "c".data 0 "d".data =
      encodeChunkId "a".data "b_c".data 0 "d".data ∧
    (("a_b", "c") : String × String) ≠ ("a", "b_c") :=
  ⟨by decide, by decide⟩

/-- C2 amended: the encoding is unambiguous only for tuples whose scope,
path and digest contain no underscore (the digest is always an md5 hex
string and the index a decimal numeral, so in practice only scope and path
matter): under that restriction, equal concatenated strings force equal
tuples.  When a scope or path contains the separator, distinct tuples can
collide, as the counterexample shows. -/
theorem C2_encoding_injective :
    ∀ (s1 p1 : List Char) (i1 : Nat) (d1 : List Char)
      (s2 p2 : List Char) (i2 : Nat) (d2 : List Char),
      '_' ∉ s1 → '_' ∉ p1 → '_' ∉ d1 → '_' ∉ s2 → '_' ∉ p2 → '_' ∉ d2 →
      encodeChunkId s1 p1 i1 d1 = encodeChunkId s2 p2 i2 d2 →
      s1 = s2 ∧ p1 = p2 ∧ i1 = i2 ∧ d1 = d2 := by
  intro s1 p1 i1 d1 s2 p2 i2 d2 hs1 hp1 hd1 hs2 hp2 hd2 he
  unfold encodeChunkId at he
  obtain ⟨hseq, he1⟩ := append_sep_inj s1 hs1 hs2 he
  obtain ⟨hpeq, he2⟩ := append_sep_inj p1 hp1 hp2 he1
  obtain ⟨hieq, hdeq⟩ := append_sep_inj (natDigits i1)
    (natDigits_no_underscore i1) (natDigits_no_underscore i2) he2
  exact ⟨hseq, hpeq, natDigits_inj hieq, hdeq⟩

/-- Witness for C2 at concrete underscore-free inputs. -/
theorem C2_witness :
    "r".data = "r".data ∧ "f".data = "f".data ∧ (1 : Nat) = 1 ∧
      "h".data = "h".data :=
  C2_encoding_injective "r".data "f".data 1 "h".data "r".data "f".data 1
    "h".data (by decide) (by decide) (by decide) (by decide) (by decide)
    (by decide) rfl

/-! ### Claim C5: independence of upsert batches -/

theorem uploadLoop_spec {α : Type} (ok : List α → Bool) :
    ∀ (bs issued : List (List α)),
      uploadLoop ok issued bs =
        (issued.reverse ++ (bs.takeWhile ok ++ (bs.dropWhile ok).take 1),
          bs.all ok) := by
  intro bs
  induction bs with
  | nil => intro issued; simp [uploadLoop]
  | cons b rest ih =>
    intro issued
    by_cases hb : ok b
    · simp only [uploadLoop, hb, if_pos, ih (b :: issued),
        List.takeWhile_cons, List.dropWhile_cons, List.all_cons,
        List.reverse_cons, List.append_assoc, if_true, Bool.true_and]
      simp [hb]
    · simp [uploadLoop, hb]

set_option maxRecDepth 4000 in
/-- C5 counterexample: with 150 vectors there are two batches, and an upsert
behaviour under which exactly one batch call (the first) fails; the run
issues only that one call and stops, so the second batch is never issued,
refuting the claim that remaining batches are still issued after a failed
batch. -/
theorem C5_counterexample :
    (batchesOf 100 (List.range 150)).length = 2 ∧
    (batchesOf 100 (List.range 150)).countP
      (fun b => ! c5_fail_first b) = 1 ∧
    (upload_to_pinecone c5_fail_first (List.range 150)).1.length = 1 ∧
    (upload_to_pinecone c5_fail_first (List.range 150)).2 = false := by
  refine ⟨by decide, by decide, by decide, by decide⟩

/-- C5 amended: during a sync, the upsert batches are issued in order only
until the first failure: the issued calls are exactly the batches before
the first failing one plus that failing call itself, the function result is
True exactly when every batch succeeds, and the surrounding run continues
(process_all_files merely records pinecone_uploaded false).  Later batches
are not issued after a failure. -/
theorem C5_upload_stops_at_first_failure :
    ∀ {α : Type} (vectors : List α) (ok : List α → Bool),
      upload_to_pinecone ok vectors =
        ((batchesOf 100 vectors).takeWhile ok ++
          ((batchesOf 100 vectors).dropWhile ok).take 1,
          (batchesOf 100 vectors).all ok) := by
  intro α vectors ok
  unfold upload_to_pinecone
  rw [uploadLoop_spec]
  simp

/-! ### Claim C8: the file filter rules -/

/-- C8: should_process_file rejects every path with a node_modules segment,
rejects every file whose lowercased extension is .png, rejects every file
of size exactly 10 MiB plus one byte, and accepts an otherwise-eligible
file of size exactly 10 MiB. -/
theorem C8_filter_rules :
    (∀ (parts : List String) (suffix : String) (size? : Option Nat),
      "node_modules" ∈ parts → should_process_file parts suffix size? = false) ∧
    (∀ (parts : List String) (suffix : String) (size? : Option Nat),
      pyLower suffix = ".png" → should_process_file parts suffix size? = false) ∧
    (∀ (parts : List String) (suffix : String),
      should_process_file parts suffix (some (10 * 1024 * 1024 + 1)) = false) ∧
    (∀ (parts : List String) (suffix : String),
      (∀ part ∈ parts, part ∉ skip_folders) →
      pyLower suffix ∉ skip_extensions →
      should_process_file parts suffix (some (10 * 1024 * 1024)) = true) := by
  refine ⟨?_, ?_, ?_, ?_⟩
  · intro parts suffix size? h
    have hany : (parts.any fun part => skip_folders.contains part) = true :=
      List.any_eq_true.mpr ⟨"node_modules", h, by decide⟩
    unfold should_process_file
    rw [if_pos hany]
  · intro parts suffix size? h
    unfold should_process_file
    by_cases hf : (parts.any fun part => skip_folders.contains part) = true
    · rw [if_pos hf]
    · rw [if_neg hf]
      have hext : skip_extensions.contains (pyLower suffix) = true := by
        rw [h]
        decide
      rw [if_pos hext]
  · intro parts suffix
    unfold should_process_file
    by_cases hf : (parts.any fun part => skip_folders.contains part) = true
    · rw [if_pos hf]
    · rw [if_neg hf]
      by_cases he : skip_extensions.contains (pyLower suffix) = true
      · rw [if_pos he]
      · rw [if_neg he]
        decide
  · intro parts suffix hparts hext
    unfold should_process_file
    have hany : ¬ ((parts.any fun part => skip_folders.contains part) = true) := by
      intro hc
      obtain ⟨part, hpart, hcont⟩ := List.any_eq_true.mp hc
      exact hparts part hpart (List.elem_iff.mp hcont)
    have hcontains : ¬ (skip_extensions.contains (pyLower suffix) = true) := by
      intro hc
      exact hext (List.elem_iff.mp hc)
    rw [if_neg hany, if_neg hcontains]
    decide

/-- Witness for C8 at concrete inputs. -/
theorem C8_witness :
    ("node_modules" ∈ (["src", "node_modules"] : List String) ∧
      should_process_file ["src", "node_modules"] ".txt" (some 10) = false) ∧
    (pyLower ".PNG" = ".png" ∧
      should_process_file ["img"] ".PNG" (some 10) = false) ∧
    should_process_file ["a"] ".txt" (some (10 * 1024 * 1024 + 1)) = false ∧
    ((∀ part ∈ (["a"] : List String), part ∉ skip_folders) ∧
      pyLower ".txt" ∉ skip_extensions ∧
      should_process_file ["a"] ".txt" (some (10 * 1024 * 1024)) = true) :=
  ⟨⟨by decide, C8_filter_rules.1 ["src", "node_modules"] ".txt" (some 10)
      (by decide)⟩,
   ⟨by decide, C8_filter_rules.2.1 ["img"] ".PNG" (some 10) (by decide)⟩,
   C8_filter_rules.2.2.1 ["a"] ".txt",
   ⟨by decide, by decide,
     C8_filter_rules.2.2.2 ["a"] ".txt" (by decide) (by decide)⟩⟩

/-! ### Claim C9: missing data directory aborts the run -/

/-- C9: when the data directory does not exist, process_all_files returns
success false with the error message immediately, processing no file and
producing no chunk, and main exits with the non-zero status 1. -/
theorem C9_missing_data_dir_aborts :
    ∀ files : List FileEntry,
      (process_all_files false files).success = false ∧
      (process_all_files false files).error = some "Data directory not found" ∧
      (process_all_files false files).processed_files = 0 ∧
      (process_all_files false files).total_chunks = 0 ∧
      main_exit_code false files = 1 := by
  intro files
  exact ⟨rfl, rfl, rfl, rfl, rfl⟩

/-! ### Claim C10: the latin-1 fallback always decodes -/

/-- C10: the iso-8859-1 attempt decodes every byte sequence, so on any
readable file get_file_content returns the result of the first of the first
three encodings that succeeds; the cp1252 attempt and the could-not-decode
branch are unreachable, and the I/O-failure branch alone returns the empty
string sentinel. -/
theorem C10_latin1_always_decodes :
    ∀ (bs : List (Fin 256))
      (utf8_decode utf16_decode cp1252_decode :
        List (Fin 256) → Option (List Char)),
      get_file_content (some bs) utf8_decode utf16_decode cp1252_decode =
        (utf8_decode bs).getD ((utf16_decode bs).getD (latin1_decode bs)) ∧
      get_file_content none utf8_decode utf16_decode cp1252_decode = [] := by
  intro bs u8 u16 cp
  constructor
  · unfold get_file_content
    cases h8 : u8 bs with
    | some t => simp [List.findSome?, h8]
    | none =>
      cases h16 : u16 bs with
      | some t => simp [List.findSome?, h8, h16]
      | none => simp [List.findSome?, h8, h16]
  · rfl

/-! ### Claim C1: stale chunks survive an incremental update -/

/-- C1: evaluation at the failing input.  The collection starts with one
chunk of f.txt recorded under the old digest; an incremental run (changed
list given, force_rebuild false) re-processes f.txt, which exists with new
non-empty content and a new digest.  Because _remove_file_chunks is a
no-op, the resulting collection still contains the old-digest chunk next to
the newly added one, contradicting the claim that prior chunks are deleted
before the new chunks are added. -/
theorem C1_stale_chunk_remains :
    (process_repo_incremental [c1_old_rec] "repo".data
        (some [c1_changed_file]) false []).1 =
      [c1_old_rec,
        { id := encodeChunkId "repo".data "f.txt".data 0 "newdigest".data,
          file_path := "f.txt".data, file_hash := "newdigest".data,
          chunk_index := 0 }] ∧
    c1_old_rec ∈ (process_repo_incremental [c1_old_rec] "repo".data
        (some [c1_changed_file]) false []).1 ∧
    c1_old_rec.file_hash ≠ c1_changed_file.file_hash :=
  ⟨by decide, by decide, by decide⟩

end CIVP
